import Mathlib

/-!
# Verification of the secret-protection core of oidc-agent (`src/utils/crypt/cryptUtils.c`)

C strings are modelled as `List Char`.  The functions of `cryptUtils.c` are
translated directly; the external collaborators that live outside the provided
source tree (the AEAD primitive of `crypt.c`, the hex legacy primitive of
`hexCrypt.c`, the memory cipher of `memoryCrypt.c`, the version utilities of
`versionUtils.c`, `strtok`/`strToInt` string helpers, prompting and file IO)
are modelled from the specification's interface descriptions, as concrete
executable functions.  Failure is modelled with `Except`: a C function that
returns `NULL` and sets `oidc_errno` is modelled as returning `.error e`.
-/

/-- C strings (NUL-free byte strings) are modelled as lists of characters. -/
abbrev Str := List Char

/-- The `oidc_errno` error codes relevant to this core. -/
inductive CryptErr where
  /-- `OIDC_ECRYPM`: malformed encrypted content. -/
  | eCRYPM
  /-- `OIDC_EPASS`: wrong password / authentication failure of the password AEAD. -/
  | ePASS
  /-- `OIDC_ECRYPMIPC`: malformed encrypted IPC message. -/
  | eCRYPMIPC
  /-- `OIDC_EARGNULLFUNC`: a required argument was `NULL`. -/
  | eARGNULLFUNC
  /-- `OIDC_EDECRYPT`: decryption with a shared key failed. -/
  | eDECRYPT
deriving DecidableEq, Repr

/-- Splits a character list at every occurrence of the delimiter `d`,
keeping empty segments.  Models `delimitedStringToList` on `'\n'`
and is the basis of the `strtok` model. -/
def splitOnChar (d : Char) : Str → List Str
  | [] => [[]]
  | c :: r =>
    if c = d then [] :: splitOnChar d r
    else
      match splitOnChar d r with
      | [] => [[c]]
      | h :: t => (c :: h) :: t

/-- The characters that the modelled encoders escape: the line delimiter,
the two field delimiters used by the envelope formats, and the escape
character itself. -/
def escaped (c : Char) : Bool :=
  c = '\n' || c = ':' || c = ';' || c = 'E'

/-- Code character used for an escaped character. -/
def escCode (c : Char) : Char :=
  if c = '\n' then 'n' else if c = ':' then 'c' else if c = ';' then 's' else 'E'

/-- Inverse of `escCode`. -/
def unescCode (c : Char) : Char :=
  if c = 'n' then '\n' else if c = 'c' then ':' else if c = 's' then ';' else c

/-- Text-safe encoding used by the modelled primitives: the result never
contains `'\n'`, `':'` or `';'`.  Plays the role of the base64/hex encoding
of the real primitives (whose alphabet likewise excludes the delimiters). -/
def esc : Str → Str
  | [] => []
  | c :: r => if escaped c then 'E' :: escCode c :: esc r else c :: esc r

/-- Decoder of `esc`. -/
def unesc : Str → Str
  | [] => []
  | [c] => [c]
  | a :: b :: r => if a = 'E' then unescCode b :: unesc r else a :: unesc (b :: r)

/-- Modelled from the spec: the password-based AEAD primitive
`crypt_encrypt` of `crypt.c` (not part of the provided sources).
`encrypt(plaintext, password) -> (ciphertext, nonce, salt)`, serialized by the
primitive into one opaque text-safe blob (no `'\n'`, no `':'`). -/
def crypt_encrypt (text password : Str) : Str :=
  esc text ++ ';' :: esc password

/-- Modelled from the spec: the password-based AEAD primitive
`crypt_decrypt` of `crypt.c` (not part of the provided sources).
Authenticated decryption: succeeds exactly on blobs produced by
`crypt_encrypt` with the same password, fails with `OIDC_EPASS`
(wrong password) otherwise. -/
def crypt_decrypt (cipher password : Str) : Except CryptErr Str :=
  match splitOnChar ';' cipher with
  | [t, w] => if unesc w = password then .ok (unesc t) else .error .ePASS
  | _ => .error .ePASS

/-- Modelled from the spec: `crypt_decryptFromList` of `crypt.c` (not part of
the provided sources): decrypts a current-generation multi-line envelope; the
opaque blob is the first line. -/
def crypt_decryptFromList (lines : List Str) (password : Str) : Except CryptErr Str :=
  match lines with
  | [] => .error .eCRYPM
  | c :: _ => crypt_decrypt c password

/-- Modelled from the spec: the legacy hex decryption primitive
`crypt_decrypt_hex` of `hexCrypt.c` (not part of the provided sources).
`decrypt(ciphertext, cipher_len, password, nonce, salt) -> plaintext | Fail`
with authentication failure reported as wrong password. -/
def crypt_decrypt_hex (cipherEnc : Str) (cipherLen : Nat) (password nonce salt : Str) :
    Except CryptErr Str :=
  match splitOnChar ';' cipherEnc, nonce, salt with
  | [t, w], _, _ =>
    if unesc w = password ∧ cipherLen = (unesc t).length then .ok (unesc t)
    else .error .ePASS
  | _, _, _ => .error .ePASS

/-- A parsed semantic version `major.minor.patch`. -/
structure Version where
  major : Nat
  minor : Nat
  patch : Nat
deriving DecidableEq, Repr

/-- Lexicographic comparison of semantic versions: `verLe a b` means `a ≤ b`. -/
def verLe (a b : Version) : Bool :=
  if a.major ≠ b.major then a.major < b.major
  else if a.minor ≠ b.minor then a.minor < b.minor
  else a.patch ≤ b.patch

/-- Decimal digit test. -/
def isDigitCh (c : Char) : Bool := '0' ≤ c && c ≤ '9'

/-- A nonempty all-decimal-digit string. -/
def isDigits (s : Str) : Bool := !s.isEmpty && s.all isDigitCh

/-- Value of a decimal digit string (most significant first). -/
def digitsVal (s : Str) : Nat :=
  s.foldl (fun a c => 10 * a + (c.toNat - 48)) 0

/-- Modelled from the spec: `strToInt`/`strToULong` string helpers (not part
of the provided sources): a `NULL` or non-numeric field yields `0`. -/
def strToNatO : Option Str → Nat
  | none => 0
  | some s => if isDigits s then digitsVal s else 0

/-- Modelled from the spec: the semantic version parser of `versionUtils.c`
(not part of the provided sources): parses `major.minor.patch` with decimal
components. -/
def parseSimpleVersion (s : Str) : Option Version :=
  match splitOnChar '.' s with
  | [a, b, c] =>
    if isDigits a ∧ isDigits b ∧ isDigits c then
      some ⟨digitsVal a, digitsVal b, digitsVal c⟩
    else none
  | _ => none

/-- Modelled from the spec: `versionAtLeast(version, minVersion)` of
`versionUtils.c` (not part of the provided sources).  A `NULL` or
unparseable version string is treated as pre-threshold (`false`). -/
def versionAtLeast (version : Option Str) (minVersion : Str) : Bool :=
  match version with
  | none => false
  | some v =>
    match parseSimpleVersion v, parseSimpleVersion minVersion with
    | some a, some b => verLe b a
    | _, _ => false

/-- Marker with which a version line begins, in the modelled version-line
format of `versionUtils.c`. -/
def verLineTag : Str := ['v', 'e', 'r', 's', 'i', 'o', 'n', ':']

/-- Modelled from the spec: `simpleVersionToVersionLine` of `versionUtils.c`
(not part of the provided sources). -/
def simpleVersionToVersionLine (v : Str) : Str := verLineTag ++ v

/-- Modelled from the spec: `versionLineToSimpleVersion` of `versionUtils.c`
(not part of the provided sources); `NULL` in, `NULL` out, and a line that is
not a version line yields `NULL`. -/
def versionLineToSimpleVersion : Option Str → Option Str
  | none => none
  | some line =>
    if line.take 8 = verLineTag then some (line.drop 8) else none

/-- Modelled from the spec: the `MIN_BASE64_VERSION` threshold constant
("introduced at format version 2.1.0"). -/
def MIN_BASE64_VERSION : Str := ['2', '.', '1', '.', '0']

/-- Modelled from the spec: the `VERSION` constant of `version.h` (not part
of the provided sources), the running software's version; at or above the
format threshold. -/
def VERSION : Str := ['5', '.', '3', '.', '0']

/-- The tokens produced by `strtok(s, ":")` iterated to exhaustion: the
nonempty maximal runs of non-`':'` characters. -/
def strtokColon (s : Str) : List Str :=
  (splitOnChar ':' s).filter (fun t => !t.isEmpty)

/-- Translation of `decryptHexFileContent` (cryptUtils.c:86-102),
parameterized by the legacy decryption primitive so that non-invocation of
the primitive on malformed input is expressible.  The four `strtok` results
and the `cipher_len == 0 || ... == NULL` check are modelled on the token
list. -/
def decryptHexFileContentP
    (prim : Str → Nat → Str → Str → Str → Except CryptErr Str)
    (cipher password : Str) : Except CryptErr Str :=
  let toks := strtokColon cipher
  let cipher_len := strToNatO toks[0]?
  match toks[1]?, toks[2]?, toks[3]? with
  | some salt_encoded, some nonce_encoded, some cipher_encoded =>
    if cipher_len = 0 then .error .eCRYPM
    else prim cipher_encoded cipher_len password nonce_encoded salt_encoded
  | _, _, _ => .error .eCRYPM

/-- `decryptHexFileContent` (cryptUtils.c:86-102) with the modelled
primitive plugged in. -/
def decryptHexFileContent (cipher password : Str) : Except CryptErr Str :=
  decryptHexFileContentP crypt_decrypt_hex cipher password

/-- Translation of `decryptLinesList` (cryptUtils.c:114-127): reads the
cipher from the first line, the version line from the last line when there
is more than one line, and dispatches on `versionAtLeast`.  An empty lines
list (first line `NULL`) is modelled as the malformed-envelope failure. -/
def decryptLinesList (lines : List Str) (password : Str) : Except CryptErr Str :=
  let cipher := lines.head?
  let version_line := if 1 < lines.length then lines.getLast? else none
  let version := versionLineToSimpleVersion version_line
  if versionAtLeast version MIN_BASE64_VERSION then
    crypt_decryptFromList lines password
  else
    match cipher with
    | some c => decryptHexFileContent c password
    | none => .error .eCRYPM

/-- Translation of `decryptFileContent` (cryptUtils.c:71-76): split the file
content at line breaks and decrypt the lines list. -/
def decryptFileContent (fileContent password : Str) : Except CryptErr Str :=
  decryptLinesList (splitOnChar '\n' fileContent) password

/-- Translation of `decryptText` (cryptUtils.c:140-151): dispatch on an
out-of-band version string (`NULL` allowed for the version). -/
def decryptText (cipher password : Str) (version : Option Str) : Except CryptErr Str :=
  if versionAtLeast version MIN_BASE64_VERSION then
    crypt_decrypt cipher password
  else
    decryptHexFileContent cipher password

/-- Translation of `encryptText` (cryptUtils.c:162-164). -/
def encryptText (text password : Str) : Str :=
  crypt_encrypt text password

/-- Translation of `encryptWithVersionLine` (cryptUtils.c:173-180):
the AEAD blob, a line break, and the version line of the running version. -/
def encryptWithVersionLine (text password : Str) : Str :=
  encryptText text password ++ '\n' :: simpleVersionToVersionLine VERSION

/-- Option-valued result of one decode attempt, as seen by `decryptFile`
(which only distinguishes `NULL` from success). -/
def decryptLinesListO (lines : List Str) (password : Str) : Option Str :=
  (decryptLinesList lines password).toOption

/-- Modelled from the spec: the `MAX_PASS_TRIES` constant of `settings.h`
(not part of the provided sources), the fixed prompt ceiling. -/
def MAX_PASS_TRIES : Nat := 3

/-- The prompt-and-attempt loop of `decryptFile` (cryptUtils.c:50-57).
`prompt i` is the password entered at the `i`-th prompt; the second
component of the result counts the prompts that were issued. -/
def promptLoop (lines : List Str) (prompt : Nat → Str) : Nat → Nat → Option Str × Nat
  | _, 0 => (none, 0)
  | i, fuel + 1 =>
    match decryptLinesListO lines (prompt i) with
    | some r => (some r, 1)
    | none =>
      let p := promptLoop lines prompt (i + 1) fuel
      (p.1, p.2 + 1)

/-- Translation of `decryptFile` (cryptUtils.c:43-61).  The file content is
given as its lines list (`getLinesFromFile` is external file IO); the result
carries the number of interactive prompts that were issued. -/
def decryptFile (lines : List Str) (password : Option Str) (prompt : Nat → Str) :
    Option Str × Nat :=
  match password with
  | some pw => (decryptLinesListO lines pw, 0)
  | none => promptLoop lines prompt 0 MAX_PASS_TRIES

/-- The cipher parameters relevant here.  Modelled from the spec: the
authentication-tag length of the AEAD primitive (`newCryptParameters` of
`crypt.c`, not part of the provided sources). -/
structure cryptParameters where
  mac_len : Nat
deriving DecidableEq, Repr

/-- Modelled from the spec: the current cipher parameter set. -/
def newCryptParameters : cryptParameters := ⟨16⟩

/-- The `encryptionInfo` record: nonce and ciphertext in text-safe encoding. -/
structure encryptionInfo where
  nonce_base64 : Str
  encrypted_base64 : Str
deriving DecidableEq, Repr

/-- Modelled from the spec: the key-based AEAD primitive
`crypt_encryptWithKey` of `crypt.c` (not part of the provided sources):
`encryptWithKey(plaintext, key) -> (ciphertext, nonce)`, both fields in a
text-safe encoding whose alphabet excludes the `':'` delimiter. -/
def crypt_encryptWithKey (msg key : Str) : encryptionInfo :=
  { nonce_base64 := ['N'], encrypted_base64 := 'C' :: esc msg ++ ';' :: esc key }

/-- Modelled from the spec: the key-based AEAD primitive
`crypt_decryptWithKey` of `crypt.c` (not part of the provided sources):
authenticated decryption that also checks the caller-supplied expected
decrypted buffer size (plaintext length plus tag length); any mismatch or
authentication failure is `OIDC_EDECRYPT`. -/
def crypt_decryptWithKey (crypt : encryptionInfo) (expectedLen : Nat) (key : Str) :
    Except CryptErr Str :=
  match crypt.encrypted_base64 with
  | 'C' :: rest =>
    match splitOnChar ';' rest with
    | [m, k] =>
      if unesc k = key ∧ expectedLen = (unesc m).length + newCryptParameters.mac_len ∧
          crypt.nonce_base64 = ['N'] then
        .ok (unesc m)
      else .error .eDECRYPT
    | _ => .error .eDECRYPT
  | _ => .error .eDECRYPT

/-- Decimal rendering of a natural number, with explicit fuel (the fuel is
always sufficient at `natToStr`); models the `%lu` rendering in
`encryptForIpc`. -/
def natToStrAux : Nat → Nat → Str
  | 0, _ => []
  | fuel + 1, n =>
    if n < 10 then [Nat.digitChar n]
    else natToStrAux fuel (n / 10) ++ [Nat.digitChar (n % 10)]

/-- Decimal rendering of a natural number. -/
def natToStr (n : Nat) : Str := natToStrAux (n + 1) n

/-- Translation of `encryptForIpc` (cryptUtils.c:182-194): encrypt with the
shared key and serialize as `<plaintext_length>:<nonce>:<ciphertext>`
(the modelled primitive never fails, so the `NULL`-ciphertext early return
is not taken). -/
def encryptForIpc (msg key : Str) : Str :=
  let cryptResult := crypt_encryptWithKey msg key
  natToStr msg.length ++ ':' :: cryptResult.nonce_base64 ++
    ':' :: cryptResult.encrypted_base64

/-- Translation of `decryptForIpc` (cryptUtils.c:196-219), parameterized by
the key-based decryption primitive so that non-invocation on malformed input
is expressible.  The three `strtok` fields, the `NULL` checks on nonce and
ciphertext, and the `msg_len + mac_len` expected size are modelled exactly. -/
def decryptForIpcP (prim : encryptionInfo → Nat → Str → Except CryptErr Str)
    (msg key : Str) : Except CryptErr Str :=
  let toks := strtokColon msg
  let msg_len := strToNatO toks[0]?
  match toks[1]?, toks[2]? with
  | some nonce_base64, some encrypted_base64 =>
    prim ⟨nonce_base64, encrypted_base64⟩ (msg_len + newCryptParameters.mac_len) key
  | _, _ => .error .eCRYPMIPC

/-- `decryptForIpc` (cryptUtils.c:196-219) with the modelled primitive
plugged in. -/
def decryptForIpc (msg key : Str) : Except CryptErr Str :=
  decryptForIpcP crypt_decryptWithKey msg key

/-- The credential record (`struct oidc_account`): logical identity plus the
four secret fields; a field is `none` when the C pointer is `NULL`. -/
structure oidc_account where
  name : Str
  access_token : Option Str
  refresh_token : Option Str
  client_id : Option Str
  client_secret : Option Str
deriving DecidableEq, Repr

/-- Modelled from the spec: `memoryEncrypt` of `memoryCrypt.c` (not part of
the provided sources): wraps a secret with the process-local memory key;
`NULL` passes through. -/
def memoryEncrypt : Option Str → Option Str
  | none => none
  | some s => some ('M' :: esc s)

/-- Modelled from the spec: `memoryDecrypt` of `memoryCrypt.c` (not part of
the provided sources): removes one memory-encryption layer. -/
def memoryDecrypt : Option Str → Option Str
  | none => none
  | some ('M' :: r) => some (unesc r)
  | some _ => none

/-- The field updates of `addAccountToList` (cryptUtils.c:330-334): wrap
refresh token, client id and client secret with the memory layer. -/
def memWrapAccount (a : oidc_account) : oidc_account :=
  { a with
    refresh_token := memoryEncrypt a.refresh_token
    client_id := memoryEncrypt a.client_id
    client_secret := memoryEncrypt a.client_secret }

/-- The field updates of `getAccountFromList` (cryptUtils.c:313-317): unwrap
refresh token, client id and client secret from the memory layer. -/
def memUnwrapAccount (a : oidc_account) : oidc_account :=
  { a with
    refresh_token := memoryDecrypt a.refresh_token
    client_id := memoryDecrypt a.client_id
    client_secret := memoryDecrypt a.client_secret }

/-- A list node holding an account: `ptr` models the C pointer identity of
the `struct oidc_account*` stored in the node, so that the
`node->val != account` instance comparisons of `addAccountToList` are
expressible. -/
structure AccountRef where
  ptr : Nat
  acc : oidc_account
deriving DecidableEq, Repr

/-- Modelled from the spec: `findInList` with the account matcher (logical
identity is the account's name): first node whose account has the given
name. -/
def findAcc (store : List AccountRef) (n : Str) : Option AccountRef :=
  store.find? (fun r => r.acc.name = n)

/-- `list_remove` of the node found by `findAcc`: removes the first entry
with the given name. -/
def removeFirstByName : List AccountRef → Str → List AccountRef
  | [], _ => []
  | r :: rest, n => if r.acc.name = n then rest else r :: removeFirstByName rest n

/-- Translation of `addAccountToList` (cryptUtils.c:329-342).  The argument
account is wrapped in place first — every aliasing store entry (same `ptr`)
sees the update — then the list is searched by logical identity; a found
node that is a different instance is removed; the (wrapped) argument is
pushed to the tail unless the found node is the argument itself. -/
def addAccountToList (store : List AccountRef) (arg : AccountRef) : List AccountRef :=
  let wrapped : AccountRef := ⟨arg.ptr, memWrapAccount arg.acc⟩
  let store' := store.map (fun r => if r.ptr = arg.ptr then wrapped else r)
  match findAcc store' arg.acc.name with
  | none => store' ++ [wrapped]
  | some node =>
    if node.ptr = arg.ptr then store'
    else removeFirstByName store' arg.acc.name ++ [wrapped]

/-- Translation of `getAccountFromList` (cryptUtils.c:306-319): find the
account by logical identity, unwrap its three memory-layer fields in place,
and return it; the updated store is returned alongside to model the
in-place mutation of the found node. -/
def getAccountFromList (store : List AccountRef) (key : oidc_account) :
    Option oidc_account × List AccountRef :=
  match findAcc store key.name with
  | none => (none, store)
  | some node =>
    let a' := memUnwrapAccount node.acc
    (some a', store.map (fun r => if r.ptr = node.ptr then ⟨r.ptr, a'⟩ else r))

/-- Modelled from the spec: `encryptText` as invoked by `lockEncrypt` on a
possibly-`NULL` account field; `crypt_encrypt` fails with the
argument-was-`NULL` error on a `NULL` field and otherwise produces the AEAD
blob. -/
def encryptTextO (t : Option Str) (pw : Str) : Except CryptErr Str :=
  match t with
  | none => .error .eARGNULLFUNC
  | some s => .ok (crypt_encrypt s pw)

/-- The per-account body of the `lockEncrypt` loop (cryptUtils.c:233-253):
encrypt the four fields in order, setting each field as soon as its
encryption succeeds and stopping at the first failure; the second component
is the error of the failed field, if any. -/
def lockEncryptAccount (pw : Str) (a : oidc_account) : oidc_account × Option CryptErr :=
  match encryptTextO a.access_token pw with
  | .error e => (a, some e)
  | .ok t1 =>
    let a1 := { a with access_token := some t1 }
    match encryptTextO a1.refresh_token pw with
    | .error e => (a1, some e)
    | .ok t2 =>
      let a2 := { a1 with refresh_token := some t2 }
      match encryptTextO a2.client_id pw with
      | .error e => (a2, some e)
      | .ok t3 =>
        let a3 := { a2 with client_id := some t3 }
        match encryptTextO a3.client_secret pw with
        | .error e => (a3, some e)
        | .ok t4 => ({ a3 with client_secret := some t4 }, none)

/-- Translation of `lockEncrypt` (cryptUtils.c:229-257): sweep the loaded
list from the head, mutating each account in place; on the first failing
field the error is returned immediately, leaving the remaining records
untouched (and the earlier, already-encrypted records mutated).  The second
component is `none` for `OIDC_SUCCESS`. -/
def lockEncrypt : List oidc_account → Str → List oidc_account × Option CryptErr
  | [], _ => ([], none)
  | a :: rest, pw =>
    match lockEncryptAccount pw a with
    | (a', some e) => (a' :: rest, some e)
    | (a', none) =>
      let p := lockEncrypt rest pw
      (a' :: p.1, p.2)

/-- The version string that `decryptLinesList` extracts from a lines list:
the last line is consulted only when there is more than one line. -/
def envVersionStr (lines : List Str) : Option Str :=
  versionLineToSimpleVersion (if 1 < lines.length then lines.getLast? else none)

/-- Number of store entries with the given logical identity. -/
def countName (store : List AccountRef) (n : Str) : Nat :=
  (store.filter (fun r => r.acc.name = n)).length

/-! ## Helper lemmas: splitting and the text-safe encoding -/

theorem splitOnChar_ne_nil (d : Char) (s : Str) : splitOnChar d s ≠ [] := by
  induction s with
  | nil => simp [splitOnChar]
  | cons c r ih =>
    simp only [splitOnChar]
    split
    · simp
    · cases h : splitOnChar d r with
      | nil => simp
      | cons h t => simp

theorem splitOnChar_of_not_mem {d : Char} {s : Str} (h : d ∉ s) :
    splitOnChar d s = [s] := by
  induction s with
  | nil => rfl
  | cons c r ih =>
    have hc : c ≠ d := fun hcd => h (hcd ▸ List.mem_cons_self c r)
    have hr : d ∉ r := fun hm => h (List.mem_cons_of_mem c hm)
    simp only [splitOnChar, if_neg hc, ih hr]

theorem splitOnChar_append {d : Char} {a : Str} (b : Str) (h : d ∉ a) :
    splitOnChar d (a ++ d :: b) = a :: splitOnChar d b := by
  induction a with
  | nil => simp [splitOnChar]
  | cons c r ih =>
    have hc : c ≠ d := fun hcd => h (hcd ▸ List.mem_cons_self c r)
    have hr : d ∉ r := fun hm => h (List.mem_cons_of_mem c hm)
    have h2 : splitOnChar d (r ++ d :: b) = r :: splitOnChar d b := ih hr
    simp only [List.cons_append, splitOnChar, if_neg hc, List.append_eq, h2]

theorem escaped_iff {c : Char} :
    escaped c = true ↔ c = '\n' ∨ c = ':' ∨ c = ';' ∨ c = 'E' := by
  constructor
  · intro h
    simp only [escaped, Bool.or_eq_true, decide_eq_true_eq] at h
    tauto
  · intro h
    simp only [escaped, Bool.or_eq_true, decide_eq_true_eq]
    tauto

theorem mem_esc_ne {x : Char} {s : Str} (h : x ∈ esc s) :
    x ≠ '\n' ∧ x ≠ ':' ∧ x ≠ ';' := by
  induction s with
  | nil => simp [esc] at h
  | cons c r ih =>
    simp only [esc] at h
    by_cases hc : escaped c = true
    · rw [if_pos hc] at h
      rcases List.mem_cons.mp h with rfl | h2
      · exact ⟨by decide, by decide, by decide⟩
      rcases List.mem_cons.mp h2 with rfl | h3
      · unfold escCode
        split
        · exact ⟨by decide, by decide, by decide⟩
        split
        · exact ⟨by decide, by decide, by decide⟩
        split
        · exact ⟨by decide, by decide, by decide⟩
        · exact ⟨by decide, by decide, by decide⟩
      · exact ih h3
    · rw [if_neg hc] at h
      rcases List.mem_cons.mp h with rfl | h2
      · have h4 : ¬(x = '\n' ∨ x = ':' ∨ x = ';' ∨ x = 'E') :=
          fun hor => hc (escaped_iff.mpr hor)
        push_neg at h4
        exact ⟨h4.1, h4.2.1, h4.2.2.1⟩
      · exact ih h2

theorem nl_not_mem_esc (s : Str) : '\n' ∉ esc s :=
  fun h => (mem_esc_ne h).1 rfl

theorem colon_not_mem_esc (s : Str) : ':' ∉ esc s :=
  fun h => (mem_esc_ne h).2.1 rfl

theorem semi_not_mem_esc (s : Str) : ';' ∉ esc s :=
  fun h => (mem_esc_ne h).2.2 rfl

theorem esc_eq_nil_iff {s : Str} : esc s = [] ↔ s = [] := by
  cases s with
  | nil => simp [esc]
  | cons c r =>
    constructor
    · intro h
      simp only [esc] at h
      split at h <;> simp at h
    · intro h
      exact absurd h (List.cons_ne_nil c r)

theorem unesc_esc (s : Str) : unesc (esc s) = s := by
  induction s with
  | nil => rfl
  | cons c r ih =>
    simp only [esc]
    by_cases hc : escaped c = true
    · rw [if_pos hc]
      have hcode : unescCode (escCode c) = c := by
        rcases escaped_iff.mp hc with h | h | h | h <;> subst h <;> decide
      have hstep : unesc ('E' :: escCode c :: esc r) = unescCode (escCode c) :: unesc (esc r) := by
        simp [unesc]
      rw [hstep, hcode, ih]
    · rw [if_neg hc]
      have hcE : c ≠ 'E' := fun h => hc (escaped_iff.mpr (Or.inr (Or.inr (Or.inr h))))
      cases he : esc r with
      | nil =>
        have : r = [] := esc_eq_nil_iff.mp he
        subst this
        rfl
      | cons b t =>
        have hstep : unesc (c :: b :: t) = c :: unesc (b :: t) := by
          simp [unesc, hcE]
        rw [hstep, ← he, ih]

/-! ## Helper lemmas: the modelled AEAD primitive -/

theorem crypt_decrypt_encrypt (t w : Str) :
    crypt_decrypt (crypt_encrypt t w) w = .ok t := by
  unfold crypt_decrypt crypt_encrypt
  rw [splitOnChar_append _ (semi_not_mem_esc t),
      splitOnChar_of_not_mem (semi_not_mem_esc w)]
  simp [unesc_esc]

theorem nl_not_mem_encryptText (t w : Str) : '\n' ∉ encryptText t w := by
  intro h
  unfold encryptText crypt_encrypt at h
  rcases List.mem_append.mp h with h | h
  · exact nl_not_mem_esc t h
  · rcases List.mem_cons.mp h with h | h
    · exact absurd h (by decide)
    · exact nl_not_mem_esc w h

/-! ## Helper lemmas: version handling and dispatch -/

theorem versionAtLeast_parse {s : Str} {v : Version}
    (h : parseSimpleVersion s = some v) :
    versionAtLeast (some s) MIN_BASE64_VERSION = verLe ⟨2, 1, 0⟩ v := by
  have hdef : versionAtLeast (some s) MIN_BASE64_VERSION =
      match parseSimpleVersion s, parseSimpleVersion MIN_BASE64_VERSION with
      | some a, some b => verLe b a
      | _, _ => false := rfl
  rw [hdef, h]
  rfl

theorem versionAtLeast_unparseable {s : Str} (h : parseSimpleVersion s = none) :
    versionAtLeast (some s) MIN_BASE64_VERSION = false := by
  have hdef : versionAtLeast (some s) MIN_BASE64_VERSION =
      match parseSimpleVersion s, parseSimpleVersion MIN_BASE64_VERSION with
      | some a, some b => verLe b a
      | _, _ => false := rfl
  rw [hdef, h]

theorem decryptLinesList_dispatch (lines : List Str) (pw : Str) :
    decryptLinesList lines pw =
      if versionAtLeast (envVersionStr lines) MIN_BASE64_VERSION then
        crypt_decryptFromList lines pw
      else
        match lines.head? with
        | some c => decryptHexFileContent c pw
        | none => .error .eCRYPM := by
  rfl

theorem c1_roundtrip_core (P W : Str) :
    decryptLinesList [encryptText P W, simpleVersionToVersionLine VERSION] W = .ok P := by
  rw [decryptLinesList_dispatch]
  have hv : versionAtLeast (envVersionStr [encryptText P W, simpleVersionToVersionLine VERSION])
      MIN_BASE64_VERSION = true := by
    have : envVersionStr [encryptText P W, simpleVersionToVersionLine VERSION] =
        some VERSION := by
      unfold envVersionStr
      simp [versionLineToSimpleVersion, simpleVersionToVersionLine, verLineTag]
    rw [this]
    decide
  rw [if_pos hv]
  show crypt_decrypt (encryptText P W) W = .ok P
  exact crypt_decrypt_encrypt P W

/-- C1: for every plaintext `P` and password `W`, decoding the envelope
produced by `encryptWithVersionLine` (AEAD blob, line break, version line of
the running software version) with the same password through
`decryptFileContent`/`decryptLinesList` returns `P`. -/
theorem c1_envelope_roundtrip (P W : Str) :
    decryptFileContent (encryptWithVersionLine P W) W = .ok P := by
  unfold decryptFileContent encryptWithVersionLine
  rw [splitOnChar_append _ (nl_not_mem_encryptText P W),
      splitOnChar_of_not_mem
        (show '\n' ∉ simpleVersionToVersionLine VERSION by decide)]
  exact c1_roundtrip_core P W

/-- C2: dispatch of the decode operations on the version marker.  A parsed
marker at or above `2.1.0` sends `decryptLinesList` to the
current-generation path (`crypt_decryptFromList`); a parsed marker below the
threshold, an absent marker (including any single-line envelope), or an
unparseable marker sends it to the legacy hex path
(`decryptHexFileContent`); `decryptText` dispatches the same way on its
out-of-band version string. -/
theorem c2_version_dispatch (lines : List Str) (c : Str) (rest : List Str)
    (pw : Str) (v : Version) (vs cipher : Str) :
    ((envVersionStr lines).bind parseSimpleVersion = some v →
        verLe ⟨2, 1, 0⟩ v = true →
        decryptLinesList lines pw = crypt_decryptFromList lines pw)
    ∧ ((envVersionStr (c :: rest)).bind parseSimpleVersion = some v →
        verLe ⟨2, 1, 0⟩ v = false →
        decryptLinesList (c :: rest) pw = decryptHexFileContent c pw)
    ∧ ((envVersionStr (c :: rest)).bind parseSimpleVersion = none →
        decryptLinesList (c :: rest) pw = decryptHexFileContent c pw)
    ∧ (decryptLinesList [c] pw = decryptHexFileContent c pw)
    ∧ (parseSimpleVersion vs = some v → verLe ⟨2, 1, 0⟩ v = true →
        decryptText cipher pw (some vs) = crypt_decrypt cipher pw)
    ∧ (parseSimpleVersion vs = some v → verLe ⟨2, 1, 0⟩ v = false →
        decryptText cipher pw (some vs) = decryptHexFileContent cipher pw)
    ∧ (parseSimpleVersion vs = none →
        decryptText cipher pw (some vs) = decryptHexFileContent cipher pw)
    ∧ (decryptText cipher pw none = decryptHexFileContent cipher pw) := by
  refine ⟨?_, ?_, ?_, ?_, ?_, ?_, ?_, ?_⟩
  · intro h1 h2
    rw [decryptLinesList_dispatch]
    cases hE : envVersionStr lines with
    | none => rw [hE] at h1; exact Option.noConfusion h1
    | some s =>
      rw [hE] at h1
      have h1' : parseSimpleVersion s = some v := h1
      rw [versionAtLeast_parse h1', h2]
      rfl
  · intro h1 h2
    rw [decryptLinesList_dispatch]
    cases hE : envVersionStr (c :: rest) with
    | none => rw [hE] at h1; exact Option.noConfusion h1
    | some s =>
      rw [hE] at h1
      have h1' : parseSimpleVersion s = some v := h1
      rw [versionAtLeast_parse h1', h2]
      rfl
  · intro h1
    rw [decryptLinesList_dispatch]
    cases hE : envVersionStr (c :: rest) with
    | none => rfl
    | some s =>
      rw [hE] at h1
      have h1' : parseSimpleVersion s = none := h1
      rw [versionAtLeast_unparseable h1']
      rfl
  · rfl
  · intro h1 h2
    unfold decryptText
    rw [versionAtLeast_parse h1, h2]
    rfl
  · intro h1 h2
    unfold decryptText
    rw [versionAtLeast_parse h1, h2]
    rfl
  · intro h1
    unfold decryptText
    rw [versionAtLeast_unparseable h1]
    rfl
  · rfl

/-- Witness for C2 at concrete envelopes: a current-version line dispatches
to the current path; a `1.0.0` line, a junk last line, and a single-line
envelope dispatch to the legacy path; likewise for `decryptText` with
out-of-band versions. -/
theorem c2_version_dispatch_witness :
    decryptLinesList [['x'], verLineTag ++ VERSION] ['p'] =
        crypt_decryptFromList [['x'], verLineTag ++ VERSION] ['p']
    ∧ decryptLinesList [['x'], verLineTag ++ ['1', '.', '0', '.', '0']] ['p'] =
        decryptHexFileContent ['x'] ['p']
    ∧ decryptLinesList [['x'], ['j', 'u', 'n', 'k']] ['p'] =
        decryptHexFileContent ['x'] ['p']
    ∧ decryptText ['x'] ['p'] (some ['1', '.', '0', '.', '0']) =
        decryptHexFileContent ['x'] ['p'] := by
  refine ⟨?_, ?_, ?_, ?_⟩
  · exact (c2_version_dispatch [['x'], verLineTag ++ VERSION] ['x'] [] ['p']
      ⟨5, 3, 0⟩ [] []).1 (by decide) (by decide)
  · exact (c2_version_dispatch [] ['x'] [verLineTag ++ ['1', '.', '0', '.', '0']] ['p']
      ⟨1, 0, 0⟩ [] []).2.1 (by decide) (by decide)
  · exact (c2_version_dispatch [] ['x'] [['j', 'u', 'n', 'k']] ['p']
      ⟨0, 0, 0⟩ [] []).2.2.1 (by decide)
  · exact (c2_version_dispatch [] [] [] ['p'] ⟨1, 0, 0⟩
      ['1', '.', '0', '.', '0'] ['x']).2.2.2.2.2.1 (by decide) (by decide)

/-- C5: a legacy envelope whose `strtok` token list lacks the salt, nonce or
ciphertext field, or whose leading length field is non-numeric or zero,
makes `decryptHexFileContent` fail with the malformed-envelope error
`OIDC_ECRYPM`, whatever the legacy decryption primitive would do — the
primitive is never invoked. -/
theorem c5_legacy_malformed (cipher pw : Str)
    (prim : Str → Nat → Str → Str → Str → Except CryptErr Str)
    (h : (strtokColon cipher).length < 4 ∨
      strToNatO (strtokColon cipher)[0]? = 0) :
    decryptHexFileContentP prim cipher pw = .error .eCRYPM := by
  rcases h with h | h
  · have h3 : (strtokColon cipher)[3]? = none := List.getElem?_eq_none (by omega)
    cases h1 : (strtokColon cipher)[1]? <;>
      cases h2 : (strtokColon cipher)[2]? <;>
        simp [decryptHexFileContentP, h1, h2, h3]
  · cases h1 : (strtokColon cipher)[1]? <;>
      cases h2 : (strtokColon cipher)[2]? <;>
        cases h3 : (strtokColon cipher)[3]? <;>
          simp [decryptHexFileContentP, h1, h2, h3, h]

/-- Witness for C5: a legacy envelope missing the ciphertext field, and one
with a zero length field, both fail with `OIDC_ECRYPM` (here with the
modelled primitive plugged in). -/
theorem c5_legacy_malformed_witness :
    decryptHexFileContentP crypt_decrypt_hex
        ['5', ':', 's', ':', 'n'] ['p'] = .error .eCRYPM ∧
    decryptHexFileContentP crypt_decrypt_hex
        ['0', ':', 's', ':', 'n', ':', 'c'] ['p'] = .error .eCRYPM := by
  constructor
  · exact c5_legacy_malformed _ _ _ (Or.inl (by decide))
  · exact c5_legacy_malformed _ _ _ (Or.inr (by decide))

/-- C7: `decryptForIpc` fails with `OIDC_ECRYPMIPC` and never invokes the
key-based primitive when the nonce or ciphertext field is absent; otherwise
it invokes the primitive exactly once, passing as expected decrypted buffer
size the parsed plaintext length plus the authentication-tag length, and an
authentication failure of the primitive fails the whole operation. -/
theorem c7_ipc_parse (msg key : Str)
    (prim : encryptionInfo → Nat → Str → Except CryptErr Str)
    (n e : Str) (er : CryptErr) :
    ((strtokColon msg)[1]? = none ∨ (strtokColon msg)[2]? = none →
        decryptForIpcP prim msg key = .error .eCRYPMIPC)
    ∧ ((strtokColon msg)[1]? = some n → (strtokColon msg)[2]? = some e →
        decryptForIpcP prim msg key =
          prim ⟨n, e⟩
            (strToNatO (strtokColon msg)[0]? + newCryptParameters.mac_len) key)
    ∧ ((strtokColon msg)[1]? = some n → (strtokColon msg)[2]? = some e →
        crypt_decryptWithKey ⟨n, e⟩
            (strToNatO (strtokColon msg)[0]? + newCryptParameters.mac_len) key =
          .error er →
        decryptForIpc msg key = .error er) := by
  refine ⟨?_, ?_, ?_⟩
  · intro h
    rcases h with h | h
    · cases h2 : (strtokColon msg)[2]? <;> simp [decryptForIpcP, h, h2]
    · cases h1 : (strtokColon msg)[1]? <;> simp [decryptForIpcP, h, h1]
  · intro h1 h2
    simp [decryptForIpcP, h1, h2]
  · intro h1 h2 h3
    unfold decryptForIpc
    simp [decryptForIpcP, h1, h2, h3]

/-- Witness for C7: a colon-free message is malformed; a three-field message
reaches the primitive with expected size `5 + 16`, and its authentication
failure fails the whole operation. -/
theorem c7_ipc_parse_witness :
    decryptForIpcP crypt_decryptWithKey ['a', 'b', 'c'] ['k'] =
        .error .eCRYPMIPC
    ∧ decryptForIpcP crypt_decryptWithKey ['5', ':', 'n', ':', 'c'] ['k'] =
        crypt_decryptWithKey ⟨['n'], ['c']⟩ (5 + 16) ['k']
    ∧ decryptForIpc ['5', ':', 'n', ':', 'c'] ['k'] = .error .eDECRYPT := by
  refine ⟨?_, ?_, ?_⟩
  · exact (c7_ipc_parse ['a', 'b', 'c'] ['k'] crypt_decryptWithKey [] [] .eDECRYPT).1
      (Or.inl (by decide))
  · exact (c7_ipc_parse ['5', ':', 'n', ':', 'c'] ['k'] crypt_decryptWithKey
      ['n'] ['c'] .eDECRYPT).2.1 (by decide) (by decide)
  · exact (c7_ipc_parse ['5', ':', 'n', ':', 'c'] ['k'] crypt_decryptWithKey
      ['n'] ['c'] .eDECRYPT).2.2 (by decide) (by decide) (by rfl)

/-! ## Helper lemmas: decimal rendering -/

theorem digitChar_isDigitCh {d : Nat} (h : d < 10) :
    isDigitCh (Nat.digitChar d) = true := by
  interval_cases d <;> decide

theorem digitChar_val {d : Nat} (h : d < 10) :
    (Nat.digitChar d).toNat - 48 = d := by
  interval_cases d <;> decide

theorem digitsVal_append (a : Str) (c : Char) :
    digitsVal (a ++ [c]) = 10 * digitsVal a + (c.toNat - 48) := by
  unfold digitsVal
  rw [List.foldl_append]
  rfl

theorem natToStrAux_spec :
    ∀ fuel n, n < fuel →
      natToStrAux fuel n ≠ [] ∧
      (∀ c ∈ natToStrAux fuel n, isDigitCh c = true) ∧
      digitsVal (natToStrAux fuel n) = n := by
  intro fuel
  induction fuel with
  | zero => intro n hn; omega
  | succ fuel ih =>
    intro n hn
    by_cases h10 : n < 10
    · refine ⟨by simp [natToStrAux, h10], ?_, ?_⟩
      · intro c hc
        rw [natToStrAux, if_pos h10] at hc
        rcases List.mem_singleton.mp hc with rfl
        exact digitChar_isDigitCh h10
      · rw [natToStrAux, if_pos h10]
        show digitsVal [Nat.digitChar n] = n
        unfold digitsVal
        simp [digitChar_val h10]
    · have hdiv : n / 10 < fuel := by
        have := Nat.div_lt_self (by omega : 0 < n) (by omega : 1 < 10)
        omega
      obtain ⟨ihne, ihmem, ihval⟩ := ih (n / 10) hdiv
      rw [natToStrAux, if_neg h10]
      refine ⟨by simp, ?_, ?_⟩
      · intro c hc
        rcases List.mem_append.mp hc with hc | hc
        · exact ihmem c hc
        · rcases List.mem_singleton.mp hc with rfl
          exact digitChar_isDigitCh (Nat.mod_lt n (by omega))
      · rw [digitsVal_append, ihval, digitChar_val (Nat.mod_lt n (by omega))]
        omega

theorem natToStr_spec (n : Nat) :
    natToStr n ≠ [] ∧ (∀ c ∈ natToStr n, isDigitCh c = true) ∧
      digitsVal (natToStr n) = n :=
  natToStrAux_spec (n + 1) n (by omega)

theorem natToStr_isDigits (n : Nat) : isDigits (natToStr n) = true := by
  obtain ⟨hne, hmem, _⟩ := natToStr_spec n
  unfold isDigits
  rw [Bool.and_eq_true, List.all_eq_true]
  exact ⟨by simp [List.isEmpty_iff, hne], hmem⟩

theorem strToNatO_natToStr (n : Nat) : strToNatO (some (natToStr n)) = n := by
  show (if isDigits (natToStr n) = true then digitsVal (natToStr n) else 0) = n
  rw [if_pos (natToStr_isDigits n)]
  exact (natToStr_spec n).2.2

theorem colon_not_mem_natToStr (n : Nat) : ':' ∉ natToStr n := by
  intro h
  have := (natToStr_spec n).2.1 ':' h
  exact absurd this (by decide)

theorem strtokColon_three (a b c : Str)
    (ha : ':' ∉ a) (hb : ':' ∉ b) (hc : ':' ∉ c)
    (na : a ≠ []) (nb : b ≠ []) (nc : c ≠ []) :
    strtokColon (a ++ ':' :: (b ++ ':' :: c)) = [a, b, c] := by
  unfold strtokColon
  rw [splitOnChar_append _ ha, splitOnChar_append _ hb,
      splitOnChar_of_not_mem hc]
  rw [List.filter_eq_self.mpr]
  intro x hx
  rcases List.mem_cons.mp hx with rfl | hx
  · simp [List.isEmpty_iff, na]
  rcases List.mem_cons.mp hx with rfl | hx
  · simp [List.isEmpty_iff, nb]
  rcases List.mem_singleton.mp hx with rfl
  simp [List.isEmpty_iff, nc]

/-- C8: for every message and shared key, `decryptForIpc` of
`encryptForIpc` with the same key recovers the message exactly; the
envelope is `<plaintext_length>:<nonce>:<ciphertext>` with the length field
the decimal length of the message. -/
theorem c8_ipc_roundtrip (M K : Str) :
    decryptForIpc (encryptForIpc M K) K = .ok M := by
  have hc : ':' ∉ ('C' :: esc M ++ ';' :: esc K) := by
    intro h
    rcases List.mem_cons.mp h with h | h
    · exact absurd h (by decide)
    rcases List.mem_append.mp h with h | h
    · exact colon_not_mem_esc M h
    rcases List.mem_cons.mp h with h | h
    · exact absurd h (by decide)
    · exact colon_not_mem_esc K h
  have htok : strtokColon
      (natToStr M.length ++ ':' :: (['N'] ++ ':' :: ('C' :: esc M ++ ';' :: esc K)))
      = [natToStr M.length, ['N'], 'C' :: esc M ++ ';' :: esc K] :=
    strtokColon_three _ _ _ (colon_not_mem_natToStr _) (by decide) hc
      ((natToStr_spec M.length).1) (by decide) (List.cons_ne_nil _ _)
  have hP : decryptForIpcP crypt_decryptWithKey
      (natToStr M.length ++ ':' :: (['N'] ++ ':' :: ('C' :: esc M ++ ';' :: esc K))) K
      = crypt_decryptWithKey ⟨['N'], 'C' :: esc M ++ ';' :: esc K⟩
          (strToNatO (some (natToStr M.length)) + newCryptParameters.mac_len) K := by
    unfold decryptForIpcP
    rw [htok]
    rfl
  have hD : crypt_decryptWithKey ⟨['N'], 'C' :: esc M ++ ';' :: esc K⟩
      (M.length + newCryptParameters.mac_len) K = .ok M := by
    show (match splitOnChar ';' (esc M ++ ';' :: esc K) with
      | [m, k] =>
        if unesc k = K ∧ M.length + newCryptParameters.mac_len =
            (unesc m).length + newCryptParameters.mac_len ∧
            (['N'] : Str) = ['N'] then
          Except.ok (unesc m)
        else Except.error CryptErr.eDECRYPT
      | _ => Except.error CryptErr.eDECRYPT) = .ok M
    rw [splitOnChar_append _ (semi_not_mem_esc M),
        splitOnChar_of_not_mem (semi_not_mem_esc K)]
    simp [unesc_esc]
  have henv : encryptForIpc M K =
      natToStr M.length ++ ':' :: (['N'] ++ ':' :: ('C' :: esc M ++ ';' :: esc K)) := by
    simp [encryptForIpc, crypt_encryptWithKey]
  unfold decryptForIpc
  rw [henv, hP, strToNatO_natToStr]
  exact hD

/-! ## Helper lemmas: the prompt-and-retry loop -/

theorem promptLoop_all_fail (lines : List Str) (prompt : Nat → Str) :
    ∀ fuel s, (∀ j, j < fuel → decryptLinesListO lines (prompt (s + j)) = none) →
      promptLoop lines prompt s fuel = (none, fuel) := by
  intro fuel
  induction fuel with
  | zero => intro s _; rfl
  | succ fuel ih =>
    intro s h
    have h0 : decryptLinesListO lines (prompt s) = none := by
      have := h 0 (by omega)
      rwa [Nat.add_zero] at this
    have hrec : promptLoop lines prompt (s + 1) fuel = (none, fuel) := by
      refine ih (s + 1) (fun j hj => ?_)
      have := h (j + 1) (by omega)
      have e : s + (j + 1) = s + 1 + j := by omega
      rwa [e] at this
    simp [promptLoop, h0, hrec]

theorem promptLoop_success (lines : List Str) (prompt : Nat → Str) (r : Str) :
    ∀ i fuel s, i < fuel →
      (∀ j, j < i → decryptLinesListO lines (prompt (s + j)) = none) →
      decryptLinesListO lines (prompt (s + i)) = some r →
      promptLoop lines prompt s fuel = (some r, i + 1) := by
  intro i
  induction i with
  | zero =>
    intro fuel s hf _ hsucc
    rw [Nat.add_zero] at hsucc
    cases fuel with
    | zero => omega
    | succ fuel => simp [promptLoop, hsucc]
  | succ i ih =>
    intro fuel s hf hfail hsucc
    cases fuel with
    | zero => omega
    | succ fuel =>
      have h0 : decryptLinesListO lines (prompt s) = none := by
        have := hfail 0 (by omega)
        rwa [Nat.add_zero] at this
      have hrec : promptLoop lines prompt (s + 1) fuel = (some r, i + 1) := by
        refine ih fuel (s + 1) (by omega) (fun j hj => ?_) ?_
        · have := hfail (j + 1) (by omega)
          have e : s + (j + 1) = s + 1 + j := by omega
          rwa [e] at this
        · have e : s + (i + 1) = s + 1 + i := by omega
          rwa [e] at hsucc
      simp [promptLoop, h0, hrec]

/-- C4: with a supplied password, `decryptFile` makes exactly one decode
attempt and returns its result with no prompting; with no password it
prompts, returns the plaintext immediately on the first success (`i` failed
prompts followed by a success give `i + 1` prompts), and returns failure
only after exactly `MAX_PASS_TRIES` failed prompts. -/
theorem c4_retry_protocol (lines : List Str) (pw : Str) (prompt : Nat → Str)
    (i : Nat) (r : Str) :
    (decryptFile lines (some pw) prompt = (decryptLinesListO lines pw, 0))
    ∧ ((∀ j, j < MAX_PASS_TRIES → decryptLinesListO lines (prompt j) = none) →
        decryptFile lines none prompt = (none, MAX_PASS_TRIES))
    ∧ (i < MAX_PASS_TRIES →
        (∀ j, j < i → decryptLinesListO lines (prompt j) = none) →
        decryptLinesListO lines (prompt i) = some r →
        decryptFile lines none prompt = (some r, i + 1)) := by
  refine ⟨rfl, ?_, ?_⟩
  · intro h
    unfold decryptFile
    refine promptLoop_all_fail lines prompt MAX_PASS_TRIES 0 (fun j hj => ?_)
    rw [Nat.zero_add]
    exact h j hj
  · intro hi hfail hsucc
    unfold decryptFile
    refine promptLoop_success lines prompt r i MAX_PASS_TRIES 0 hi (fun j hj => ?_) ?_
    · rw [Nat.zero_add]
      exact hfail j hj
    · rw [Nat.zero_add]
      exact hsucc

/-- Witness for C4: a supplied password gives one attempt and no prompt; an
undecryptable file exhausts exactly three prompts; a correct password at the
first prompt returns the plaintext after one prompt. -/
theorem c4_retry_protocol_witness :
    decryptFile [['x']] (some ['p']) (fun _ => ['q']) =
        (decryptLinesListO [['x']] ['p'], 0)
    ∧ decryptFile [['x']] none (fun _ => ['q']) = (none, MAX_PASS_TRIES)
    ∧ decryptFile [crypt_encrypt ['m'] ['p'], simpleVersionToVersionLine VERSION]
        none (fun _ => ['p']) = (some ['m'], 1) := by
  refine ⟨?_, ?_, ?_⟩
  · exact (c4_retry_protocol [['x']] ['p'] (fun _ => ['q']) 0 []).1
  · exact (c4_retry_protocol [['x']] ['p'] (fun _ => ['q']) 0 []).2.1
      (by decide)
  · exact (c4_retry_protocol
      [crypt_encrypt ['m'] ['p'], simpleVersionToVersionLine VERSION]
      ['p'] (fun _ => ['p']) 0 ['m']).2.2 (by decide)
      (fun j hj => absurd hj (Nat.not_lt_zero j)) (by decide)

/-! ## C3: lockEncrypt is not atomic on error -/

/-- Counterexample to C3 as stated: in a store of two accounts where the
second account's access token is `NULL` (so its encryption fails with the
argument-`NULL` error), `lockEncrypt` fails — but the first account has all
its fields replaced by encrypted values, so the store is not left
untouched. -/
theorem c3_lock_atomicity_cex :
    encryptTextO (none : Option Str) ['w'] = .error .eARGNULLFUNC
    ∧ (lockEncrypt
        [⟨['g'], some ['t'], some ['r'], some ['i'], some ['s']⟩,
         ⟨['b'], none, some ['r'], some ['i'], some ['s']⟩] ['w']).2 ≠ none
    ∧ (lockEncrypt
        [⟨['g'], some ['t'], some ['r'], some ['i'], some ['s']⟩,
         ⟨['b'], none, some ['r'], some ['i'], some ['s']⟩] ['w']).1 ≠
      [⟨['g'], some ['t'], some ['r'], some ['i'], some ['s']⟩,
       ⟨['b'], none, some ['r'], some ['i'], some ['s']⟩] := by
  refine ⟨rfl, by decide, by decide⟩

/-- C3 (amended): when the encryption of a field of some account fails,
`lockEncrypt` fails as a whole, reporting the first failing account's error;
the accounts after the failing one are left untouched and the failing
account keeps its not-yet-processed fields — but the accounts processed
before the failure keep their newly encrypted fields, so the store is not
rolled back. -/
theorem c3_lock_failure_shape (pre : List oidc_account) (a : oidc_account)
    (rest : List oidc_account) (pw : Str)
    (hpre : ∀ b ∈ pre, (lockEncryptAccount pw b).2 = none)
    (ha : (lockEncryptAccount pw a).2 ≠ none) :
    lockEncrypt (pre ++ a :: rest) pw =
      (pre.map (fun b => (lockEncryptAccount pw b).1) ++
        (lockEncryptAccount pw a).1 :: rest,
       (lockEncryptAccount pw a).2) := by
  induction pre with
  | nil =>
    simp only [List.nil_append, List.map_nil]
    cases h : lockEncryptAccount pw a with
    | mk a' e =>
      cases e with
      | none => rw [h] at ha; simp at ha
      | some err => simp [lockEncrypt, h]
  | cons b pre ih =>
    have hb : (lockEncryptAccount pw b).2 = none := hpre b (List.mem_cons_self b pre)
    have hrec := ih (fun x hx => hpre x (List.mem_cons_of_mem b hx))
    cases hlb : lockEncryptAccount pw b with
    | mk b' e =>
      rw [hlb] at hb
      simp only at hb
      subst hb
      simp only [List.cons_append, List.map_cons]
      simp [lockEncrypt, hlb, hrec]

/-- Witness for the amended C3: with one fully-present account before a
record whose access token is `NULL`, `lockEncrypt` fails with the
argument-`NULL` error, the first account is encrypted, and the failing
account is unchanged. -/
theorem c3_lock_failure_shape_witness :
    lockEncrypt
        [⟨['g'], some ['t'], some ['r'], some ['i'], some ['s']⟩,
         ⟨['b'], none, some ['r'], some ['i'], some ['s']⟩] ['w'] =
      ([(lockEncryptAccount ['w'] ⟨['g'], some ['t'], some ['r'], some ['i'], some ['s']⟩).1,
        ⟨['b'], none, some ['r'], some ['i'], some ['s']⟩],
       some .eARGNULLFUNC) := by
  have h := c3_lock_failure_shape
    [⟨['g'], some ['t'], some ['r'], some ['i'], some ['s']⟩]
    ⟨['b'], none, some ['r'], some ['i'], some ['s']⟩ [] ['w']
    (by decide) (by decide)
  simpa using h

/-! ## Helper lemmas: the loaded-accounts store -/

theorem mem_update_map {l : List AccountRef} {p : Nat} {w r : AccountRef}
    (h : r ∈ l.map (fun x => if x.ptr = p then w else x)) : r = w ∨ r ∈ l := by
  rcases List.mem_map.mp h with ⟨x, hx, hr⟩
  by_cases hp : x.ptr = p
  · left
    rw [← hr, if_pos hp]
  · right
    rw [← hr, if_neg hp]
    exact hx

theorem update_map_id {l : List AccountRef} {p : Nat} {w : AccountRef}
    (h : ∀ r ∈ l, r.ptr ≠ p) :
    l.map (fun x => if x.ptr = p then w else x) = l := by
  induction l with
  | nil => rfl
  | cons x l ih =>
    simp only [List.map_cons]
    rw [if_neg (h x (List.mem_cons_self x l)),
        ih (fun r hr => h r (List.mem_cons_of_mem x hr))]

theorem findAcc_eq_some {store : List AccountRef} {n : Str} {r : AccountRef}
    (h : findAcc store n = some r) : r ∈ store ∧ r.acc.name = n := by
  unfold findAcc at h
  refine ⟨List.mem_of_find?_eq_some h, ?_⟩
  have := List.find?_some h
  simpa using this

theorem mem_removeFirstByName {store : List AccountRef} {n : Str} {r : AccountRef}
    (h : r ∈ removeFirstByName store n) : r ∈ store := by
  induction store with
  | nil => simp [removeFirstByName] at h
  | cons x l ih =>
    simp only [removeFirstByName] at h
    split at h
    · exact List.mem_cons_of_mem x h
    · rcases List.mem_cons.mp h with rfl | h
      · exact List.mem_cons_self r l
      · exact List.mem_cons_of_mem x (ih h)

theorem length_removeFirstByName {store : List AccountRef} {n : Str}
    {r : AccountRef} (h : findAcc store n = some r) :
    (removeFirstByName store n).length + 1 = store.length := by
  induction store with
  | nil => simp [findAcc] at h
  | cons x l ih =>
    by_cases hx : x.acc.name = n
    · simp [removeFirstByName, hx]
    · have h' : findAcc l n = some r := by
        unfold findAcc at h ⊢
        rwa [List.find?_cons_of_neg _ (by simpa using hx)] at h
      simp only [removeFirstByName, if_neg hx, List.length_cons]
      rw [← ih h']

theorem removeFirst_no_name {store : List AccountRef} {n : Str}
    (h : countName store n = 1) :
    ∀ r ∈ removeFirstByName store n, r.acc.name ≠ n := by
  induction store with
  | nil => intro r hr; simp [removeFirstByName] at hr
  | cons x l ih =>
    by_cases hx : x.acc.name = n
    · intro r hr
      rw [removeFirstByName, if_pos hx] at hr
      unfold countName at h
      rw [List.filter_cons_of_pos (by simpa using hx)] at h
      simp only [List.length_cons] at h
      have hz : countName l n = 0 := by
        unfold countName
        omega
      have : ∀ y ∈ l, ¬(y.acc.name = n) := by
        intro y hy hyn
        have : y ∈ l.filter (fun z => z.acc.name = n) :=
          List.mem_filter.mpr ⟨hy, by simpa using hyn⟩
        unfold countName at hz
        rw [List.length_eq_zero] at hz
        rw [hz] at this
        exact absurd this (List.not_mem_nil y)
      exact this r hr
    · intro r hr
      rw [removeFirstByName, if_neg hx] at hr
      rcases List.mem_cons.mp hr with rfl | hr
      · exact hx
      · refine ih ?_ r hr
        unfold countName at h ⊢
        rwa [List.filter_cons_of_neg (by simpa using hx)] at h

theorem findAcc_append_of_none {pre l : List AccountRef} {n : Str}
    (h : ∀ r ∈ pre, r.acc.name ≠ n) :
    findAcc (pre ++ l) n = findAcc l n := by
  induction pre with
  | nil => rfl
  | cons x p ih =>
    unfold findAcc at ih ⊢
    rw [List.cons_append,
        List.find?_cons_of_neg _ (by simpa using h x (List.mem_cons_self x p))]
    exact ih (fun r hr => h r (List.mem_cons_of_mem x hr))

/-- C6: the memory-obfuscation wrap and unwrap of the store operations
change only the refresh token, client id and client secret and never the
access token (for the wrap/unwrap field updates, for every entry of the
store after `addAccountToList`, and for the account returned by
`getAccountFromList`); the lock transition encrypts all four fields,
including the access token, for any account whose fields are present —
whatever their memory-layer state. -/
theorem c6_field_scope (store : List AccountRef) (arg : AccountRef)
    (key a a' : oidc_account) (st' : List AccountRef)
    (pw : Str) (t1 t2 t3 t4 : Str) :
    ((memWrapAccount a).access_token = a.access_token
      ∧ (memUnwrapAccount a).access_token = a.access_token
      ∧ (memWrapAccount a).name = a.name
      ∧ (memWrapAccount a).refresh_token = memoryEncrypt a.refresh_token
      ∧ (memWrapAccount a).client_id = memoryEncrypt a.client_id
      ∧ (memWrapAccount a).client_secret = memoryEncrypt a.client_secret
      ∧ (memUnwrapAccount a).refresh_token = memoryDecrypt a.refresh_token
      ∧ (memUnwrapAccount a).client_id = memoryDecrypt a.client_id
      ∧ (memUnwrapAccount a).client_secret = memoryDecrypt a.client_secret)
    ∧ (∀ r ∈ addAccountToList store arg,
        r.acc.access_token = arg.acc.access_token
        ∨ ∃ r0 ∈ store, r.acc.access_token = r0.acc.access_token)
    ∧ (getAccountFromList store key = (some a', st') →
        ∃ node ∈ store, a' = memUnwrapAccount node.acc
          ∧ a'.access_token = node.acc.access_token)
    ∧ (encryptTextO a.access_token pw = .ok t1 →
        encryptTextO a.refresh_token pw = .ok t2 →
        encryptTextO a.client_id pw = .ok t3 →
        encryptTextO a.client_secret pw = .ok t4 →
        lockEncryptAccount pw a =
          (⟨a.name, some t1, some t2, some t3, some t4⟩, none)) := by
  refine ⟨⟨rfl, rfl, rfl, rfl, rfl, rfl, rfl, rfl, rfl⟩, ?_, ?_, ?_⟩
  · intro r hr
    have hw : (memWrapAccount arg.acc).access_token = arg.acc.access_token := rfl
    simp only [addAccountToList] at hr
    split at hr
    · rcases List.mem_append.mp hr with hr | hr
      · rcases mem_update_map hr with rfl | hr
        · left; exact hw
        · right; exact ⟨r, hr, rfl⟩
      · rcases List.mem_singleton.mp hr with rfl
        left; exact hw
    · split at hr
      · rcases mem_update_map hr with rfl | hr
        · left; exact hw
        · right; exact ⟨r, hr, rfl⟩
      · rcases List.mem_append.mp hr with hr | hr
        · rcases mem_update_map (mem_removeFirstByName hr) with rfl | hr
          · left; exact hw
          · right; exact ⟨r, hr, rfl⟩
        · rcases List.mem_singleton.mp hr with rfl
          left; exact hw
  · intro h
    simp only [getAccountFromList] at h
    split at h
    · simp at h
    · rename_i node heq
      simp only [Prod.mk.injEq] at h
      have ha2 : a' = memUnwrapAccount node.acc := by
        have h5 := h.1
        injection h5 with h6
        exact h6.symm
      refine ⟨node, (findAcc_eq_some heq).1, ha2, ?_⟩
      rw [ha2]
      rfl
  · intro h1 h2 h3 h4
    simp only [lockEncryptAccount, h1]
    simp only [h2]
    simp only [h3]
    simp only [h4]

/-- Witness for C6 at a concrete account: the upserted store entry keeps the
access token; the looked-up account keeps the access token of its store
node; the lock step encrypts all four fields. -/
theorem c6_field_scope_witness :
    ((⟨7, memWrapAccount ⟨['g'], some ['t'], some ['r'], some ['i'], some ['s']⟩⟩ :
        AccountRef).acc.access_token =
      (⟨7, ⟨['g'], some ['t'], some ['r'], some ['i'], some ['s']⟩⟩ :
        AccountRef).acc.access_token
      ∨ ∃ r0 ∈ ([] : List AccountRef),
        (⟨7, memWrapAccount ⟨['g'], some ['t'], some ['r'], some ['i'], some ['s']⟩⟩ :
          AccountRef).acc.access_token = r0.acc.access_token)
    ∧ (∃ node ∈ [(⟨7, ⟨['g'], some ['t'], some ['r'], some ['i'], some ['s']⟩⟩ :
          AccountRef)],
        memUnwrapAccount ⟨['g'], some ['t'], some ['r'], some ['i'], some ['s']⟩ =
          memUnwrapAccount node.acc
        ∧ (memUnwrapAccount
            ⟨['g'], some ['t'], some ['r'], some ['i'], some ['s']⟩).access_token =
          node.acc.access_token)
    ∧ lockEncryptAccount ['w'] ⟨['g'], some ['t'], some ['r'], some ['i'], some ['s']⟩ =
        (⟨['g'], some (crypt_encrypt ['t'] ['w']), some (crypt_encrypt ['r'] ['w']),
          some (crypt_encrypt ['i'] ['w']), some (crypt_encrypt ['s'] ['w'])⟩, none) := by
  refine ⟨?_, ?_, ?_⟩
  · exact (c6_field_scope [] ⟨7, ⟨['g'], some ['t'], some ['r'], some ['i'], some ['s']⟩⟩
      ⟨['g'], some ['t'], some ['r'], some ['i'], some ['s']⟩
      ⟨['g'], some ['t'], some ['r'], some ['i'], some ['s']⟩
      ⟨['g'], some ['t'], some ['r'], some ['i'], some ['s']⟩ [] ['w'] [] [] [] []).2.1
      ⟨7, memWrapAccount ⟨['g'], some ['t'], some ['r'], some ['i'], some ['s']⟩⟩
      (by decide)
  · exact (c6_field_scope [⟨7, ⟨['g'], some ['t'], some ['r'], some ['i'], some ['s']⟩⟩]
      ⟨7, ⟨['g'], some ['t'], some ['r'], some ['i'], some ['s']⟩⟩
      ⟨['g'], some ['t'], some ['r'], some ['i'], some ['s']⟩
      ⟨['g'], some ['t'], some ['r'], some ['i'], some ['s']⟩
      (memUnwrapAccount ⟨['g'], some ['t'], some ['r'], some ['i'], some ['s']⟩)
      [⟨7, memUnwrapAccount ⟨['g'], some ['t'], some ['r'], some ['i'], some ['s']⟩⟩]
      ['w'] [] [] [] []).2.2.1 (by decide)
  · exact (c6_field_scope [] ⟨7, ⟨['g'], some ['t'], some ['r'], some ['i'], some ['s']⟩⟩
      ⟨['g'], some ['t'], some ['r'], some ['i'], some ['s']⟩
      ⟨['g'], some ['t'], some ['r'], some ['i'], some ['s']⟩
      ⟨['g'], some ['t'], some ['r'], some ['i'], some ['s']⟩ [] ['w']
      (crypt_encrypt ['t'] ['w']) (crypt_encrypt ['r'] ['w'])
      (crypt_encrypt ['i'] ['w']) (crypt_encrypt ['s'] ['w'])).2.2.2 rfl rfl rfl rfl

/-- C9: upsert semantics of `addAccountToList` for a fresh record instance.
When an entry with the same logical identity is present (necessarily a
different instance), the old entry is removed, the wrapped record is pushed
at the tail, the store length is unchanged and the old entry is no longer
in the store; when no entry with that identity exists, the wrapped record
is appended and the length grows by exactly one. -/
theorem c9_upsert_semantics (store : List AccountRef) (arg old : AccountRef)
    (hptr : ∀ r ∈ store, r.ptr ≠ arg.ptr) :
    (findAcc store arg.acc.name = some old → countName store arg.acc.name = 1 →
      addAccountToList store arg =
        removeFirstByName store arg.acc.name ++ [⟨arg.ptr, memWrapAccount arg.acc⟩]
      ∧ (addAccountToList store arg).length = store.length
      ∧ old ∉ addAccountToList store arg)
    ∧ (findAcc store arg.acc.name = none →
      addAccountToList store arg = store ++ [⟨arg.ptr, memWrapAccount arg.acc⟩]
      ∧ (addAccountToList store arg).length = store.length + 1) := by
  constructor
  · intro hf hcount
    have hne : old.ptr ≠ arg.ptr := hptr old (findAcc_eq_some hf).1
    have heq : addAccountToList store arg =
        removeFirstByName store arg.acc.name ++ [⟨arg.ptr, memWrapAccount arg.acc⟩] := by
      simp only [addAccountToList, update_map_id hptr, hf, if_neg hne]
    refine ⟨heq, ?_, ?_⟩
    · rw [heq, List.length_append]
      have := length_removeFirstByName hf
      simp only [List.length_singleton]
      omega
    · rw [heq]
      intro hmem
      rcases List.mem_append.mp hmem with hmem | hmem
      · exact removeFirst_no_name hcount old hmem (findAcc_eq_some hf).2
      · have h2 := List.mem_singleton.mp hmem
        exact hne (by rw [h2])
  · intro hf
    have heq : addAccountToList store arg =
        store ++ [⟨arg.ptr, memWrapAccount arg.acc⟩] := by
      simp only [addAccountToList, update_map_id hptr, hf]
    refine ⟨heq, ?_⟩
    rw [heq]
    simp

/-- Witness for C9: replacing an existing same-name entry keeps the length
at one and drops the old entry; inserting a fresh name appends. -/
theorem c9_upsert_semantics_witness :
    (addAccountToList [⟨1, ⟨['g'], some ['t'], some ['r'], some ['i'], some ['s']⟩⟩]
        ⟨2, ⟨['g'], none, none, none, none⟩⟩ =
      removeFirstByName [⟨1, ⟨['g'], some ['t'], some ['r'], some ['i'], some ['s']⟩⟩]
          ['g'] ++ [⟨2, memWrapAccount ⟨['g'], none, none, none, none⟩⟩]
      ∧ (addAccountToList [⟨1, ⟨['g'], some ['t'], some ['r'], some ['i'], some ['s']⟩⟩]
          ⟨2, ⟨['g'], none, none, none, none⟩⟩).length =
        ([⟨1, ⟨['g'], some ['t'], some ['r'], some ['i'], some ['s']⟩⟩] :
          List AccountRef).length
      ∧ (⟨1, ⟨['g'], some ['t'], some ['r'], some ['i'], some ['s']⟩⟩ : AccountRef) ∉
        addAccountToList [⟨1, ⟨['g'], some ['t'], some ['r'], some ['i'], some ['s']⟩⟩]
          ⟨2, ⟨['g'], none, none, none, none⟩⟩)
    ∧ (addAccountToList [⟨1, ⟨['g'], some ['t'], some ['r'], some ['i'], some ['s']⟩⟩]
        ⟨2, ⟨['h'], none, none, none, none⟩⟩ =
      [⟨1, ⟨['g'], some ['t'], some ['r'], some ['i'], some ['s']⟩⟩] ++
        [⟨2, memWrapAccount ⟨['h'], none, none, none, none⟩⟩]
      ∧ (addAccountToList [⟨1, ⟨['g'], some ['t'], some ['r'], some ['i'], some ['s']⟩⟩]
          ⟨2, ⟨['h'], none, none, none, none⟩⟩).length =
        ([⟨1, ⟨['g'], some ['t'], some ['r'], some ['i'], some ['s']⟩⟩] :
          List AccountRef).length + 1) := by
  constructor
  · exact (c9_upsert_semantics
      [⟨1, ⟨['g'], some ['t'], some ['r'], some ['i'], some ['s']⟩⟩]
      ⟨2, ⟨['g'], none, none, none, none⟩⟩
      ⟨1, ⟨['g'], some ['t'], some ['r'], some ['i'], some ['s']⟩⟩
      (by decide)).1 (by decide) (by decide)
  · exact (c9_upsert_semantics
      [⟨1, ⟨['g'], some ['t'], some ['r'], some ['i'], some ['s']⟩⟩]
      ⟨2, ⟨['h'], none, none, none, none⟩⟩
      ⟨1, ⟨['g'], some ['t'], some ['r'], some ['i'], some ['s']⟩⟩
      (by decide)).2 (by decide)

/-- C10: `addAccountToList` applies the memory wrap unconditionally and
before the identity lookup: the wrapped version of the argument instance is
in the store after every call; and when the argument instance is itself the
matching entry, it is neither removed nor re-pushed — the store keeps its
shape and length, with that entry's three fields carrying one more
memory-encryption layer. -/
theorem c10_wrap_unconditional (store pre post : List AccountRef) (arg : AccountRef)
    (hname : ∀ r ∈ pre, r.acc.name ≠ arg.acc.name)
    (hp1 : ∀ r ∈ pre, r.ptr ≠ arg.ptr)
    (hp2 : ∀ r ∈ post, r.ptr ≠ arg.ptr) :
    (⟨arg.ptr, memWrapAccount arg.acc⟩ : AccountRef) ∈ addAccountToList store arg
    ∧ addAccountToList (pre ++ arg :: post) arg =
        pre ++ ⟨arg.ptr, memWrapAccount arg.acc⟩ :: post
    ∧ (addAccountToList (pre ++ arg :: post) arg).length = (pre ++ arg :: post).length
    ∧ (memWrapAccount arg.acc).refresh_token = memoryEncrypt arg.acc.refresh_token
    ∧ (memWrapAccount arg.acc).client_id = memoryEncrypt arg.acc.client_id
    ∧ (memWrapAccount arg.acc).client_secret = memoryEncrypt arg.acc.client_secret := by
  have hmap : (pre ++ arg :: post).map
      (fun r => if r.ptr = arg.ptr then ⟨arg.ptr, memWrapAccount arg.acc⟩ else r)
      = pre ++ ⟨arg.ptr, memWrapAccount arg.acc⟩ :: post := by
    rw [List.map_append, List.map_cons, update_map_id hp1, update_map_id hp2,
        if_pos rfl]
  have hfind : findAcc (pre ++ (⟨arg.ptr, memWrapAccount arg.acc⟩ : AccountRef) :: post)
      arg.acc.name = some ⟨arg.ptr, memWrapAccount arg.acc⟩ := by
    rw [findAcc_append_of_none hname]
    unfold findAcc
    rw [List.find?_cons_of_pos]
    simp [memWrapAccount]
  have heq : addAccountToList (pre ++ arg :: post) arg =
      pre ++ ⟨arg.ptr, memWrapAccount arg.acc⟩ :: post := by
    simp only [addAccountToList, hmap, hfind, if_pos]
  refine ⟨?_, heq, by rw [heq]; simp, rfl, rfl, rfl⟩
  simp only [addAccountToList]
  split
  · exact List.mem_append_right _ (List.mem_singleton.mpr rfl)
  · rename_i node heq2
    split
    · rename_i hnp
      have hmem := (findAcc_eq_some heq2).1
      rcases List.mem_map.mp hmem with ⟨x, hx, hnode⟩
      by_cases hxp : x.ptr = arg.ptr
      · rw [if_pos hxp] at hnode
        rw [← hnode] at hmem
        exact hmem
      · rw [if_neg hxp] at hnode
        rw [hnode] at hxp
        exact absurd hnp hxp
    · exact List.mem_append_right _ (List.mem_singleton.mpr rfl)

/-- Witness for C10: with the argument instance already the matching entry
of a three-entry store, the call leaves shape and length unchanged except
for the extra wrap layer on that entry. -/
theorem c10_wrap_unconditional_witness :
    (⟨2, memWrapAccount ⟨['g'], none, some ['r'], none, none⟩⟩ : AccountRef) ∈
      addAccountToList [] ⟨2, ⟨['g'], none, some ['r'], none, none⟩⟩
    ∧ addAccountToList
        [⟨1, ⟨['h'], none, none, none, none⟩⟩,
         ⟨2, ⟨['g'], none, some ['r'], none, none⟩⟩,
         ⟨3, ⟨['c'], none, none, none, none⟩⟩]
        ⟨2, ⟨['g'], none, some ['r'], none, none⟩⟩ =
      [⟨1, ⟨['h'], none, none, none, none⟩⟩,
       ⟨2, memWrapAccount ⟨['g'], none, some ['r'], none, none⟩⟩,
       ⟨3, ⟨['c'], none, none, none, none⟩⟩]
    ∧ (memWrapAccount ⟨['g'], none, some ['r'], none, none⟩).refresh_token =
        memoryEncrypt (some ['r']) := by
  have h := c10_wrap_unconditional []
    [⟨1, ⟨['h'], none, none, none, none⟩⟩]
    [⟨3, ⟨['c'], none, none, none, none⟩⟩]
    ⟨2, ⟨['g'], none, some ['r'], none, none⟩⟩
    (by decide) (by decide) (by decide)
  exact ⟨h.1, h.2.1, h.2.2.2.1⟩
